import Mathlib

/-!
Verification of the change-propagation engine of django-computedfields.

The development shallowly embeds the two source files of the core
(`computedfields/resolver.py` and `computedfields/fast_update.py`):

* records are total valuations `String → Int` of field names,
* the per-model local evaluation order (`_local_mro` entry) is an ordered
  field list `base` plus a per-field bitmask table `fields`,
* the database layer is abstracted into traces of actions/events
  (SQL executions, naive fallbacks, transaction begin/end markers),
* compute functions of computed fields are pure functions of the record.

Every definition mirrors the corresponding Python function; comments give
the source location.
-/

namespace ComputedFields

/-- Field values; `Int` suffices to express equality/distinctness of values. -/
abbrev Value := Int

/-- An in-memory model instance: a total valuation of field names
(Python attribute access `getattr(instance, name)`). -/
abbrev Record := String → Value

/-- Python `setattr(instance, f, v)`: pointwise update of a record. -/
def setattr (r : Record) (f : String) (v : Value) : Record :=
  fun g => if g = f then v else r g

/-- One entry of `Resolver._local_mro` (resolver.py): the ordered sequence
`base` of local computed field names and the bitmask table `fields`
mapping a field name to the bitmask of positions in `base` depending on it. -/
structure MroEntry where
  base : List String
  fields : List (String × Nat)

/-- Python `entry['fields'].get(field, 0)`: bitmask lookup with default 0. -/
def lookupMask (fields : List (String × Nat)) (f : String) : Nat :=
  match fields.find? (fun p => p.1 = f) with
  | some p => p.2
  | none => 0

/-- `Resolver.get_local_mro` (resolver.py, lines 407-431): OR the bitmasks of
the given `update_fields` and filter the ordered `base` sequence by bit test;
`none` as entry yields `[]`, omitted `update_fields` yields the full base. -/
def get_local_mro (entry : Option MroEntry) (update_fields : Option (List String)) :
    List String :=
  match entry with
  | none => []
  | some e =>
    match update_fields with
    | none => e.base
    | some ufs =>
      let mro := ufs.foldl (fun acc f => acc ||| lookupMask e.fields f) 0
      (e.base.enum.filter (fun p => (mro &&& (1 <<< p.1)) != 0)).map Prod.snd

lemma testBit_foldl_or (m : String → Nat) (l : List String) (init i : Nat) :
    (l.foldl (fun acc f => acc ||| m f) init).testBit i
      = (init.testBit i || l.any (fun f => (m f).testBit i)) := by
  induction l generalizing init with
  | nil => simp
  | cons f rest ih =>
    simp only [List.foldl_cons, List.any_cons, ih, Nat.testBit_or, Bool.or_assoc]

lemma and_one_shiftLeft_ne_zero (x p : Nat) :
    ((x &&& (1 <<< p)) != 0) = x.testBit p := by
  rw [Nat.one_shiftLeft, Nat.and_two_pow]
  have hp : (2 : Nat) ^ p ≠ 0 := Nat.pos_iff_ne_zero.mp (Nat.pos_pow_of_pos p (by norm_num))
  cases h : x.testBit p <;> simp [h, hp]

/-- C3: `get_local_mro` returns exactly the field names of `base` whose
position bit is set in some given update field's bitmask (equivalently, in the
bitwise OR of those bitmasks), in base order — hence a sublist of `base`;
with `update_fields` omitted it returns the full base sequence, and for a
model with no entry it returns the empty list. -/
theorem get_local_mro_char (e : MroEntry) (ufs : List String)
    (uf0 : Option (List String)) :
    get_local_mro none uf0 = []
    ∧ get_local_mro (some e) none = e.base
    ∧ get_local_mro (some e) (some ufs)
        = (e.base.enum.filter
            (fun p => ufs.any (fun f => (lookupMask e.fields f).testBit p.1))).map
            Prod.snd
    ∧ List.Sublist (get_local_mro (some e) (some ufs)) e.base := by
  have hpred : (fun p : Nat × String =>
        ((ufs.foldl (fun acc f => acc ||| lookupMask e.fields f) 0
          &&& (1 <<< p.1)) != 0))
      = (fun p : Nat × String =>
        ufs.any (fun f => (lookupMask e.fields f).testBit p.1)) := by
    funext p
    rw [and_one_shiftLeft_ne_zero, testBit_foldl_or]
    simp
  refine ⟨rfl, rfl, ?_, ?_⟩
  · simp only [get_local_mro, hpred]
  · simp only [get_local_mro]
    have h1 : List.Sublist
        ((e.base.enum.filter (fun p =>
          ((ufs.foldl (fun acc f => acc ||| lookupMask e.fields f) 0
            &&& (1 <<< p.1)) != 0))).map Prod.snd)
        (e.base.enum.map Prod.snd) :=
      List.Sublist.map Prod.snd (List.filter_sublist _)
    rwa [List.enum_map_snd] at h1

/-- Per-model runtime data used by `Resolver.compute` and
`Resolver.update_computedfields`: the `_local_mro` entry of the model and the
compute functions of its computed fields
(`Resolver._compute`, resolver.py lines 674-684, a pure function of the
instance: `field._computed['func'](instance)`). -/
structure LocalModel where
  mro_entry : Option MroEntry
  comp : String → Record → Value

/-- The loop of `Resolver.compute` (resolver.py, lines 708-720): walk the
local MRO forwards; until the requested field is reached, provisionally
assign every field the requested one depends on (bit test against `pos`),
saving the old value on `stack`; at the requested field produce the result
and rewind all stacked values. Falling off the end mirrors Python's implicit
`return None` (unreachable when the requested field is in the MRO). -/
def computeLoop (m : LocalModel) (fields : List (String × Nat))
    (fieldname : String) (pos : Nat) :
    List String → Record → List (String × Value) → Option Value × Record
  | [], r, _ => (none, r)
  | f :: rest, r, stack =>
    if f = fieldname then
      (some (m.comp fieldname r),
       stack.foldl (fun acc p => setattr acc p.1 p.2) r)
    else
      if ((lookupMask fields f) &&& pos) != 0 then
        computeLoop m fields fieldname pos rest
          (setattr r f (m.comp f r)) (stack ++ [(f, r f)])
      else
        computeLoop m fields fieldname pos rest r stack

/-- `Resolver.compute` (resolver.py, lines 686-720): non-destructive preview
of a computed field value. If `fieldname` is not in the local MRO, return the
current attribute value unchanged; otherwise resolve the MRO backwards via
`computeLoop`. Returns the produced value together with the final record
state of the passed instance. -/
def compute (m : LocalModel) (r : Record) (fieldname : String) :
    Option Value × Record :=
  match m.mro_entry with
  | none => (some (r fieldname), r)
  | some e =>
    if fieldname ∈ e.base then
      computeLoop m e.fields fieldname (1 <<< e.base.indexOf fieldname)
        e.base r []
    else (some (r fieldname), r)

lemma foldl_setattr_restore (r0 : Record) :
    ∀ (stack : List (String × Value)) (r : Record),
    (stack.map Prod.fst).Nodup →
    (∀ p ∈ stack, p.2 = r0 p.1) →
    (∀ g, g ∉ stack.map Prod.fst → r g = r0 g) →
    ∀ g, (stack.foldl (fun acc p => setattr acc p.1 p.2) r) g = r0 g := by
  intro stack
  induction stack with
  | nil => intro r _ _ hout g; exact hout g (by simp)
  | cons p rest ih =>
    intro r hnd hold hout g
    simp only [List.foldl_cons]
    apply ih (setattr r p.1 p.2)
    · exact (List.nodup_cons.mp (by simpa using hnd)).2
    · intro q hq; exact hold q (List.mem_cons_of_mem p hq)
    · intro g2 hg2
      by_cases hcase : g2 = p.1
      · subst hcase
        simp only [setattr, if_pos rfl]
        exact hold p (List.mem_cons_self p rest)
      · simp only [setattr, if_neg hcase]
        apply hout
        simp only [List.map_cons, List.mem_cons]
        push_neg
        exact ⟨hcase, hg2⟩

lemma computeLoop_restores (m : LocalModel) (fields : List (String × Nat))
    (fieldname : String) (pos : Nat) :
    ∀ (l : List String) (r r0 : Record) (stack : List (String × Value)),
    fieldname ∈ l →
    l.Nodup →
    (stack.map Prod.fst).Nodup →
    (∀ p ∈ stack, p.2 = r0 p.1) →
    (∀ g, g ∉ stack.map Prod.fst → r g = r0 g) →
    (∀ f ∈ l, f ∉ stack.map Prod.fst) →
    ∀ g, (computeLoop m fields fieldname pos l r stack).2 g = r0 g := by
  intro l
  induction l with
  | nil => intro r r0 stack hmem; exact absurd hmem (List.not_mem_nil fieldname)
  | cons f rest ih =>
    intro r r0 stack hmem hndl hnds hold hout hdisj g
    by_cases hf : f = fieldname
    · simp only [computeLoop, if_pos hf]
      exact foldl_setattr_restore r0 stack r hnds hold hout g
    · simp only [computeLoop, if_neg hf]
      have hmem2 : fieldname ∈ rest := by
        cases List.mem_cons.mp hmem with
        | inl h => exact absurd h.symm hf
        | inr h => exact h
      have hndrest : rest.Nodup := (List.nodup_cons.mp hndl).2
      have hfnotrest : f ∉ rest := (List.nodup_cons.mp hndl).1
      by_cases hbit : ((lookupMask fields f) &&& pos) != 0
      · simp only [if_pos hbit]
        apply ih (setattr r f (m.comp f r)) r0 (stack ++ [(f, r f)]) hmem2 hndrest
        · simp only [List.map_append, List.map_cons, List.map_nil]
          rw [List.nodup_append]
          refine ⟨hnds, List.nodup_singleton f, ?_⟩
          intro a ha hb
          simp only [List.mem_singleton] at hb
          subst hb
          exact (hdisj a (List.mem_cons_self a rest)) ha
        · intro q hq
          cases List.mem_append.mp hq with
          | inl h => exact hold q h
          | inr h =>
            simp only [List.mem_singleton] at h
            subst h
            exact hout f (hdisj f (List.mem_cons_self f rest))
        · intro g2 hg2
          simp only [List.map_append, List.map_cons, List.map_nil,
            List.mem_append, List.mem_singleton] at hg2
          push_neg at hg2
          simp only [setattr, if_neg hg2.2]
          exact hout g2 hg2.1
        · intro f2 hf2
          simp only [List.map_append, List.map_cons, List.map_nil,
            List.mem_append, List.mem_singleton]
          push_neg
          exact ⟨hdisj f2 (List.mem_cons_of_mem f hf2),
            fun heq => hfnotrest (heq ▸ hf2)⟩
      · simp only [if_neg hbit]
        exact ih r r0 stack hmem2 hndrest hnds hold hout
          (fun f2 hf2 => hdisj f2 (List.mem_cons_of_mem f hf2)) g

/-- C2: `Resolver.compute` is non-destructive: whatever provisional values
the local-MRO walk assigns, they are all rewound before the result is
returned, so every field of the passed record equals its pre-call value
(assuming the model's stored base order lists each field once). -/
theorem compute_nondestructive (m : LocalModel) (r : Record) (fieldname : String)
    (hnd : ∀ e, m.mro_entry = some e → e.base.Nodup) :
    ∀ g, (compute m r fieldname).2 g = r g := by
  intro g
  match hme : m.mro_entry with
  | none => simp [compute, hme]
  | some e =>
    simp only [compute, hme]
    by_cases hmem : fieldname ∈ e.base
    · simp only [if_pos hmem]
      exact computeLoop_restores m e.fields fieldname
        (1 <<< e.base.indexOf fieldname) e.base r r [] hmem (hnd e hme)
        (by simp) (by simp) (fun _ _ => rfl) (by simp) g
    · simp only [if_neg hmem]

/-- Witness for C2 at a two-field chained model (`c2` depends on `c1`
depends on source `x`): previewing `c2` provisionally computes `c1` and
rewinds it, leaving the record unchanged. -/
theorem compute_nondestructive_witness :
    (∀ e, (LocalModel.mk
        (some (MroEntry.mk ["c1", "c2"] [("c1", 3), ("c2", 2)]))
        (fun f r => if f = "c1" then r "x" + 1 else r "c1" + 1)).mro_entry
          = some e → e.base.Nodup)
    ∧ (compute (LocalModel.mk
        (some (MroEntry.mk ["c1", "c2"] [("c1", 3), ("c2", 2)]))
        (fun f r => if f = "c1" then r "x" + 1 else r "c1" + 1))
        (fun _ => 0) "c2").2 "c1" = (fun (_ : String) => (0 : Value)) "c1" :=
  ⟨fun e he => by
      simp only [Option.some.injEq] at he
      rw [← he]
      decide,
   compute_nondestructive
     (LocalModel.mk
        (some (MroEntry.mk ["c1", "c2"] [("c1", 3), ("c2", 2)]))
        (fun f r => if f = "c1" then r "x" + 1 else r "c1" + 1))
     (fun _ => 0) "c2"
     (fun e he => by
        simp only [Option.some.injEq] at he
        rw [← he]
        decide) "c1"⟩

/-- C10: for a field name that is not a local computed field (not in the
local MRO), `Resolver.compute` just returns the current attribute value and
leaves the record untouched (lines 700-703 of resolver.py). -/
theorem compute_passthrough (m : LocalModel) (r : Record) (fieldname : String)
    (h : fieldname ∉ get_local_mro m.mro_entry none) :
    compute m r fieldname = (some (r fieldname), r) := by
  match hme : m.mro_entry with
  | none => simp [compute, hme]
  | some e =>
    rw [hme] at h
    simp only [get_local_mro] at h
    simp [compute, hme, h]

/-- Witness for C10: a name absent from the local MRO passes straight
through. -/
theorem compute_passthrough_witness :
    "z" ∉ get_local_mro
        (LocalModel.mk (some (MroEntry.mk ["c"] [("c", 1)]))
          (fun _ r => r "x")).mro_entry none
    ∧ compute (LocalModel.mk (some (MroEntry.mk ["c"] [("c", 1)]))
          (fun _ r => r "x")) (fun _ => 7) "z"
        = (some ((fun (_ : String) => (7 : Value)) "z"), fun _ => 7) :=
  ⟨by decide,
   compute_passthrough
     (LocalModel.mk (some (MroEntry.mk ["c"] [("c", 1)])) (fun _ r => r "x"))
     (fun _ => 7) "z" (by decide)⟩

/-- Python `set(update_fields).update(set(cf_mro))` (resolver.py lines
928-929), represented as duplicate-free list union keeping given order. -/
def setUnion (a b : List String) : List String :=
  a ++ b.filter (fun x => !(a.contains x))

/-- The assignment loop of `Resolver.update_computedfields` (resolver.py
lines 930-931): `setattr(instance, fieldname, self._compute(...))` over the
filtered local MRO, left to right. -/
def assignFields (m : LocalModel) (l : List String) (r : Record) : Record :=
  l.foldl (fun acc f => setattr acc f (m.comp f acc)) r

/-- `Resolver.update_computedfields` (resolver.py, lines 907-934):
destructively recompute the local computed fields affected by
`update_fields` in local-MRO order; return the record together with the
Python return value (`None` or the expanded field-name set). `hasCF` is the
`has_computedfields(model)` test. -/
def update_computedfields (m : LocalModel) (hasCF : Bool) (r : Record)
    (update_fields : Option (List String)) : Record × Option (List String) :=
  if !hasCF then (r, update_fields)
  else
    let cf_mro := get_local_mro m.mro_entry update_fields
    let uf2 : Option (List String) :=
      match update_fields with
      | some ufs => if ufs.isEmpty then some ufs else some (setUnion ufs cf_mro)
      | none => none
    let r2 := assignFields m cf_mro r
    match uf2 with
    | some l => if l.isEmpty then (r2, none) else (r2, some l)
    | none => (r2, none)

lemma assignFields_frame (m : LocalModel) :
    ∀ (l : List String) (r : Record) (g : String),
    g ∉ l → assignFields m l r g = r g := by
  intro l
  induction l with
  | nil => intro r g _; rfl
  | cons f rest ih =>
    intro r g hg
    simp only [List.mem_cons] at hg
    push_neg at hg
    simp only [assignFields, List.foldl_cons]
    have h2 := ih (setattr r f (m.comp f r)) g hg.2
    simp only [assignFields] at h2
    rw [h2, setattr, if_neg hg.1]

lemma assignFields_append (m : LocalModel) (l1 l2 : List String) (r : Record) :
    assignFields m (l1 ++ l2) r = assignFields m l2 (assignFields m l1 r) := by
  simp only [assignFields, List.foldl_append]

lemma assignFields_at (m : LocalModel) (pre post : List String) (f : String)
    (hf : f ∉ post) (r : Record) :
    assignFields m (pre ++ f :: post) r f = m.comp f (assignFields m pre r) := by
  rw [assignFields_append]
  have step : assignFields m (f :: post) (assignFields m pre r)
      = assignFields m post
          (setattr (assignFields m pre r) f (m.comp f (assignFields m pre r))) := by
    simp only [assignFields, List.foldl_cons]
  rw [step, assignFields_frame m post _ f hf, setattr, if_pos rfl]

/-- Modelled from the spec: the local MRO generator (graph.py, not part of
src/) emits a topological order of the local computed fields, so that each
field's compute function reads only source fields and strictly earlier
computed fields — "an ordered sequence of locally-interdependent computed
field names such that computing them in that order, left to right, always
uses already-updated values for any that a later field depends on" (spec §3).
Formally: each compute function is insensitive to the values of its own and
all later positions of the order. -/
def MroRespectsDeps (m : LocalModel) (l : List String) : Prop :=
  ∀ pre f post, l = pre ++ f :: post →
    ∀ r₁ r₂ : Record, (∀ g, g ∉ f :: post → r₁ g = r₂ g) →
      m.comp f r₁ = m.comp f r₂

lemma mroRespects_tail (m : LocalModel) (f : String) (rest : List String)
    (h : MroRespectsDeps m (f :: rest)) : MroRespectsDeps m rest := by
  intro pre g post hsplit r₁ r₂ hag
  exact h (f :: pre) g post (by rw [hsplit, List.cons_append]) r₁ r₂ hag

lemma assignFields_idem (m : LocalModel) :
    ∀ (l : List String), l.Nodup → MroRespectsDeps m l →
    ∀ (r : Record) (g : String),
      assignFields m l (assignFields m l r) g = assignFields m l r g := by
  intro l
  induction l with
  | nil => intro _ _ r g; rfl
  | cons f rest ih =>
    intro hnd hdep r g
    have hfrest : f ∉ rest := (List.nodup_cons.mp hnd).1
    have hndrest : rest.Nodup := (List.nodup_cons.mp hnd).2
    have hdeprest : MroRespectsDeps m rest := mroRespects_tail m f rest hdep
    have hhead := hdep [] f rest rfl
    set s := setattr r f (m.comp f r) with hs
    have hcons : ∀ t : Record, assignFields m (f :: rest) t
        = assignFields m rest (setattr t f (m.comp f t)) := by
      intro t; simp only [assignFields, List.foldl_cons]
    set r1 := assignFields m rest s with hr1
    have houter : assignFields m (f :: rest) r = r1 := by rw [hcons]
    have hval : m.comp f r1 = m.comp f r := by
      have h1 : m.comp f r1 = m.comp f s := by
        apply hhead
        intro g2 hg2
        simp only [List.mem_cons] at hg2
        push_neg at hg2
        exact assignFields_frame m rest s g2 hg2.2
      have h2 : m.comp f s = m.comp f r := by
        apply hhead
        intro g2 hg2
        simp only [List.mem_cons] at hg2
        push_neg at hg2
        rw [hs, setattr, if_neg hg2.1]
      rw [h1, h2]
    have hr1f : r1 f = m.comp f r := by
      rw [hr1, assignFields_frame m rest s f hfrest, hs, setattr, if_pos rfl]
    have hset : setattr r1 f (m.comp f r1) = r1 := by
      funext g2
      rw [hval, setattr]
      by_cases hcase : g2 = f
      · rw [if_pos hcase, hcase, hr1f]
      · rw [if_neg hcase]
    rw [houter, hcons r1, hset, hr1]
    exact ih hndrest hdeprest s g

lemma update_computedfields_fst (m : LocalModel) (hasCF : Bool) (r : Record)
    (ufs : Option (List String)) :
    (update_computedfields m hasCF r ufs).1
      = if hasCF then assignFields m (get_local_mro m.mro_entry ufs) r else r := by
  cases hasCF with
  | false => rfl
  | true =>
    simp only [update_computedfields, Bool.not_true, Bool.false_eq_true,
      if_false, if_true]
    split
    · split <;> rfl
    · rfl

/-- C9: calling `update_computedfields` twice in succession with the same
arguments and no intervening source-field change leaves every field value
unchanged the second time. Hypotheses: the filtered local MRO is
duplicate-free and dependency-respecting (`MroRespectsDeps`, the invariant
the MRO generator establishes). -/
theorem update_computedfields_idempotent (m : LocalModel) (hasCF : Bool)
    (r : Record) (ufs : Option (List String))
    (hnd : (get_local_mro m.mro_entry ufs).Nodup)
    (hdep : MroRespectsDeps m (get_local_mro m.mro_entry ufs)) :
    ∀ g, (update_computedfields m hasCF
            (update_computedfields m hasCF r ufs).1 ufs).1 g
         = (update_computedfields m hasCF r ufs).1 g := by
  intro g
  rw [update_computedfields_fst, update_computedfields_fst]
  cases hasCF with
  | false => simp
  | true =>
    simp only [if_true]
    exact assignFields_idem m (get_local_mro m.mro_entry ufs) hnd hdep r g

/-- Witness for C9 at a one-field model whose compute function reads only
the source field `x`. -/
theorem update_computedfields_idempotent_witness :
    (get_local_mro (some (MroEntry.mk ["c"] [("c", 1)])) none).Nodup
    ∧ (update_computedfields
        (LocalModel.mk (some (MroEntry.mk ["c"] [("c", 1)]))
          (fun f r => if f = "c" then r "x" + 1 else 0)) true
        (update_computedfields
          (LocalModel.mk (some (MroEntry.mk ["c"] [("c", 1)]))
            (fun f r => if f = "c" then r "x" + 1 else 0)) true
          (fun _ => 0) none).1 none).1 "c"
      = (update_computedfields
          (LocalModel.mk (some (MroEntry.mk ["c"] [("c", 1)]))
            (fun f r => if f = "c" then r "x" + 1 else 0)) true
          (fun _ => 0) none).1 "c" := by
  refine ⟨by decide, ?_⟩
  apply update_computedfields_idempotent
    (LocalModel.mk (some (MroEntry.mk ["c"] [("c", 1)]))
      (fun f r => if f = "c" then r "x" + 1 else 0)) true (fun _ => 0) none
    (by decide)
  intro pre f post hsplit r₁ r₂ hag
  have hl : get_local_mro
      (LocalModel.mk (some (MroEntry.mk ["c"] [("c", 1)]))
        (fun f r => if f = "c" then r "x" + 1 else 0)).mro_entry none
      = ["c"] := rfl
  rw [hl] at hsplit
  have hshape : pre = [] ∧ f = "c" ∧ post = [] := by
    cases pre with
    | nil =>
      simp only [List.nil_append, List.cons.injEq] at hsplit
      exact ⟨rfl, hsplit.1.symm, hsplit.2.symm⟩
    | cons a as =>
      simp only [List.cons_append, List.cons.injEq] at hsplit
      exact absurd hsplit.2.symm (List.append_ne_nil_of_right_ne_nil as
        (List.cons_ne_nil f post))
  obtain ⟨hp, hf, hpo⟩ := hshape
  subst hf
  subst hpo
  have hx : r₁ "x" = r₂ "x" := hag "x" (by decide)
  simp only [if_pos rfl, hx]

lemma setUnion_mem (a b : List String) (x : String) :
    x ∈ setUnion a b ↔ x ∈ a ∨ x ∈ b := by
  by_cases hx : x ∈ a <;> simp [setUnion, hx]

/-- C6 counterexample: `update_computedfields` with `changedFieldNames`
omitted on a model with one computed field recomputes that field but returns
`none` (Python `None`), not the set of field names that changed. -/
theorem update_computedfields_omitted_returns_none :
    (update_computedfields
        (LocalModel.mk (some (MroEntry.mk ["c"] [("c", 1)])) (fun _ r => r "x"))
        true (fun _ => 0) none).2 = none
    ∧ get_local_mro
        (LocalModel.mk (some (MroEntry.mk ["c"] [("c", 1)]))
          (fun _ r => r "x")).mro_entry none = ["c"] :=
  ⟨rfl, rfl⟩

/-- C6 (amended): `update_computedfields` recomputes and assigns exactly the
affected local computed fields in local-MRO order (fields outside the
filtered MRO are untouched; each affected field receives its compute
function applied to the state holding all earlier MRO assignments). When
`changedFieldNames` is present and non-empty it returns its union with the
affected computed fields; when omitted it returns `none`; and when the model
has no computed fields the call is the identity. -/
theorem update_computedfields_contract (m : LocalModel) (r : Record)
    (ufs : List String) (uf0 : Option (List String)) (h : ufs ≠ []) :
    (update_computedfields m true r (some ufs)).2
        = some (setUnion ufs (get_local_mro m.mro_entry (some ufs)))
    ∧ (∀ x, x ∈ setUnion ufs (get_local_mro m.mro_entry (some ufs))
          ↔ x ∈ ufs ∨ x ∈ get_local_mro m.mro_entry (some ufs))
    ∧ (∀ g, g ∉ get_local_mro m.mro_entry (some ufs) →
        (update_computedfields m true r (some ufs)).1 g = r g)
    ∧ (∀ pre f post, get_local_mro m.mro_entry (some ufs) = pre ++ f :: post →
        f ∉ post →
        (update_computedfields m true r (some ufs)).1 f
          = m.comp f (assignFields m pre r))
    ∧ (update_computedfields m true r none).2 = none
    ∧ update_computedfields m false r uf0 = (r, uf0) := by
  have hne : ufs.isEmpty = false := by
    cases ufs with
    | nil => exact absurd rfl h
    | cons a as => rfl
  have hu : ¬ (setUnion ufs (get_local_mro m.mro_entry (some ufs))).isEmpty = true := by
    cases ufs with
    | nil => exact absurd rfl h
    | cons a as => simp [setUnion]
  refine ⟨?_, setUnion_mem ufs _, ?_, ?_, rfl, rfl⟩
  · simp only [update_computedfields, Bool.not_true, Bool.false_eq_true,
      if_false, if_true, hne, Bool.false_eq_true, if_false]
    simp only [if_neg hu]
  · intro g hg
    rw [update_computedfields_fst, if_pos rfl]
    exact assignFields_frame m _ r g hg
  · intro pre f post hsplit hf
    rw [update_computedfields_fst, if_pos rfl, hsplit]
    exact assignFields_at m pre post f hf r

/-- Witness for C6 (amended) at a one-computed-field model with
`changedFieldNames = ["c"]`. -/
theorem update_computedfields_contract_witness :
    (["c"] : List String) ≠ []
    ∧ (update_computedfields
        (LocalModel.mk (some (MroEntry.mk ["c"] [("c", 1)])) (fun _ r => r "x"))
        true (fun _ => 0) (some ["c"])).2
      = some (setUnion ["c"]
          (get_local_mro (some (MroEntry.mk ["c"] [("c", 1)])) (some ["c"]))) :=
  ⟨by decide,
   (update_computedfields_contract
      (LocalModel.mk (some (MroEntry.mk ["c"] [("c", 1)])) (fun _ r => r "x"))
      (fun _ => 0) ["c"] none (by decide)).1⟩

/-- The per-record recomputation of `Resolver.bulk_updater` (resolver.py,
lines 649-654): for each field of the local MRO in order, compute the new
value against the current in-memory state; when it differs, assign it and
flag the record as changed. Returns the final record and the
`has_changed` flag. -/
def recomputeRecord (comp : String → Record → Value) (mro : List String)
    (r : Record) : Record × Bool :=
  mro.foldl (fun acc f =>
      if comp f acc.1 = acc.1 f then acc else (setattr acc.1 f (comp f acc.1), true))
    (r, false)

/-- The contribution of one queryset record to the change batch: `some` of
its primary key and updated state when some recomputed value differed,
`none` otherwise. -/
def changedEntry (comp : String → Record → Value) (mro : List String)
    (p : Nat × Record) : Option (Nat × Record) :=
  let res := recomputeRecord comp mro p.2
  if res.2 then some (p.1, res.1) else none

/-- The batching loop of `Resolver.bulk_updater` (resolver.py, lines
646-661): walk the queryset, collect changed records into `change`, flush
through `_update` whenever the batch reaches the configured batch size, and
flush the remainder at the end. The result is the list of flushed batches
(each flush is one `_update` call, i.e. one bulk write). -/
def bulk_updater_loop (comp : String → Record → Value) (mro : List String)
    (bs : Nat) : List (Nat × Record) → List (Nat × Record) →
    List (List (Nat × Record))
  | [], change => if change.isEmpty then [] else [change]
  | p :: rest, change =>
    let res := recomputeRecord comp mro p.2
    let change2 := if res.2 then change ++ [(p.1, res.1)] else change
    if bs ≤ change2.length then change2 :: bulk_updater_loop comp mro bs rest []
    else bulk_updater_loop comp mro bs rest change2

/-- The write batches issued by `Resolver.bulk_updater` for a queryset: the
whole record loop is guarded by `if fields:` (line 646), so an empty local
MRO issues no writes at all. -/
def bulk_updater_writes (comp : String → Record → Value) (mro : List String)
    (bs : Nat) (qs : List (Nat × Record)) : List (List (Nat × Record)) :=
  if mro.isEmpty then [] else bulk_updater_loop comp mro bs qs []

lemma recomputeRecord_snd_mono (comp : String → Record → Value) :
    ∀ (l : List String) (acc : Record × Bool), acc.2 = true →
    (l.foldl (fun acc f =>
      if comp f acc.1 = acc.1 f then acc
      else (setattr acc.1 f (comp f acc.1), true)) acc).2 = true := by
  intro l
  induction l with
  | nil => intro acc h; exact h
  | cons f rest ih =>
    intro acc h
    simp only [List.foldl_cons]
    by_cases hc : comp f acc.1 = acc.1 f
    · rw [if_pos hc]; exact ih acc h
    · rw [if_neg hc]; exact ih _ rfl

lemma recomputeRecord_consistent (comp : String → Record → Value) :
    ∀ (l : List String) (r : Record), (∀ f ∈ l, comp f r = r f) →
    (l.foldl (fun acc f =>
      if comp f acc.1 = acc.1 f then acc
      else (setattr acc.1 f (comp f acc.1), true)) (r, false)) = (r, false) := by
  intro l
  induction l with
  | nil => intro r _; rfl
  | cons f rest ih =>
    intro r hcons
    simp only [List.foldl_cons]
    rw [if_pos (hcons f (List.mem_cons_self f rest))]
    exact ih r (fun g hg => hcons g (List.mem_cons_of_mem f hg))

lemma recomputeRecord_false_iff (comp : String → Record → Value)
    (mro : List String) (r : Record) :
    (recomputeRecord comp mro r).2 = false ↔ ∀ f ∈ mro, comp f r = r f := by
  constructor
  · intro h
    by_contra hnot
    push_neg at hnot
    obtain ⟨f, hf, hne⟩ := hnot
    obtain ⟨pre, post, hsplit⟩ := List.append_of_mem hf
    have key : ∀ (l : List String) (r0 : Record),
        (∀ g ∈ l, comp g r0 = r0 g) → f ∈ l → comp f r0 ≠ r0 f → False := by
      intro l
      induction l with
      | nil => intro r0 _ hmem; exact absurd hmem (List.not_mem_nil f)
      | cons a as ih =>
        intro r0 hall hmem hne2
        exact hne2 (hall f hmem)
    by_cases hall : ∀ g ∈ mro, comp g r = r g
    · exact hne (hall f hf)
    · push_neg at hall
      -- the fold must have flagged a change: derive contradiction with h
      -- walk the mro: at the first differing field the flag is set and stays
      clear key hsplit pre post hne hf f
      obtain ⟨f, hf, hne⟩ := hall
      revert h
      have : ∀ (l : List String) (r0 : Record), f ∈ l → comp f r0 ≠ r0 f →
          ((l.foldl (fun acc g =>
            if comp g acc.1 = acc.1 g then acc
            else (setattr acc.1 g (comp g acc.1), true)) (r0, false)).2 = false) →
          (∀ g ∈ l, comp g r0 = r0 g) := by
        intro l
        induction l with
        | nil => intro r0 hmem; exact absurd hmem (List.not_mem_nil f)
        | cons a as ih =>
          intro r0 hmem hne2 hfold
          by_cases hc : comp a r0 = r0 a
          · simp only [List.foldl_cons, if_pos hc] at hfold
            intro g hg
            cases List.mem_cons.mp hg with
            | inl hga => rw [hga]; exact hc
            | inr hgas =>
              cases List.mem_cons.mp hmem with
              | inl hfa => rw [hfa] at hne2; exact absurd hc hne2
              | inr hfas => exact ih r0 hfas hne2 hfold g hgas
          · simp only [List.foldl_cons, if_neg hc] at hfold
            rw [recomputeRecord_snd_mono comp as _ rfl] at hfold
            exact absurd hfold (by simp)
      intro h
      exact hne (this mro r hf hne h f hf)
  · intro hcons
    simp only [recomputeRecord]
    rw [recomputeRecord_consistent comp mro r hcons]

lemma bulk_updater_loop_join (comp : String → Record → Value)
    (mro : List String) (bs : Nat) :
    ∀ (qs : List (Nat × Record)) (change : List (Nat × Record)),
    (bulk_updater_loop comp mro bs qs change).flatten
      = change ++ qs.filterMap (changedEntry comp mro) := by
  intro qs
  induction qs with
  | nil =>
    intro change
    by_cases h : change.isEmpty
    · simp only [bulk_updater_loop, if_pos h, List.flatten_nil, List.filterMap_nil]
      rw [List.isEmpty_iff] at h
      rw [h, List.append_nil]
    · simp only [bulk_updater_loop, if_neg h]
      simp
  | cons p rest ih =>
    intro change
    simp only [bulk_updater_loop, List.filterMap_cons, changedEntry]
    by_cases hch : (recomputeRecord comp mro p.2).2
    · simp only [hch, if_true]
      by_cases hflush : bs ≤ (change ++ [(p.1, (recomputeRecord comp mro p.2).1)]).length
      · rw [if_pos hflush]
        simp only [List.flatten_cons, ih, List.nil_append, List.append_assoc,
          List.cons_append, List.nil_append]
      · rw [if_neg hflush, ih]
        simp
    · simp only [hch, if_false, Bool.false_eq_true, if_false]
      by_cases hflush : bs ≤ change.length
      · rw [if_pos hflush]
        simp only [List.flatten_cons, ih, List.nil_append]
      · rw [if_neg hflush, ih]

lemma bulk_updater_loop_nowrites (comp : String → Record → Value)
    (mro : List String) (bs : Nat) (hbs : 0 < bs) :
    ∀ (qs : List (Nat × Record)),
    (∀ p ∈ qs, (recomputeRecord comp mro p.2).2 = false) →
    bulk_updater_loop comp mro bs qs [] = [] := by
  intro qs
  induction qs with
  | nil => intro _; rfl
  | cons p rest ih =>
    intro hall
    have hp := hall p (List.mem_cons_self p rest)
    simp only [bulk_updater_loop, hp, Bool.false_eq_true, if_false,
      List.length_nil]
    rw [if_neg (by omega)]
    exact ih (fun q hq => hall q (List.mem_cons_of_mem p hq))

/-- C1: minimality of `bulk_updater`. The concatenation of all flushed write
batches contains exactly the records for which some recomputed local
computed-field value differed from the in-memory value at comparison time
(`changedEntry`), in queryset order; the per-record change flag is `false`
precisely when every recomputed value equals the current one; and for a
record set in which no source field changed (every record already
consistent), `bulk_updater` issues zero writes. -/
theorem bulk_updater_minimality (comp : String → Record → Value)
    (mro : List String) (bs : Nat) (qs : List (Nat × Record)) :
    (bulk_updater_writes comp mro bs qs).flatten
        = qs.filterMap (changedEntry comp mro)
    ∧ (∀ r : Record,
        (recomputeRecord comp mro r).2 = false ↔ ∀ f ∈ mro, comp f r = r f)
    ∧ (0 < bs → (∀ p ∈ qs, ∀ f ∈ mro, comp f p.2 = p.2 f) →
        bulk_updater_writes comp mro bs qs = []) := by
  refine ⟨?_, fun r => recomputeRecord_false_iff comp mro r, ?_⟩
  · by_cases hmro : mro.isEmpty
    · simp only [bulk_updater_writes, if_pos hmro, List.flatten_nil]
      rw [List.isEmpty_iff] at hmro
      subst hmro
      have : ∀ p : Nat × Record, changedEntry comp [] p = none := by
        intro p; rfl
      simp [List.filterMap_eq_nil_iff, this]
    · simp only [bulk_updater_writes, if_neg hmro]
      rw [bulk_updater_loop_join]
      rfl
  · intro hbs hcons
    by_cases hmro : mro.isEmpty
    · simp only [bulk_updater_writes, if_pos hmro]
    · simp only [bulk_updater_writes, if_neg hmro]
      exact bulk_updater_loop_nowrites comp mro bs hbs qs
        (fun p hp => (recomputeRecord_false_iff comp mro p.2).mpr (hcons p hp))

/-- Witness for C1: a fully consistent one-record queryset (its computed
field already equals its recomputed value) produces zero write batches. -/
theorem bulk_updater_minimality_witness :
    0 < 100
    ∧ (∀ p ∈ [((1 : Nat), (fun _ => 7 : Record))], ∀ f ∈ ["c"],
        (fun (_ : String) (r : Record) => r "x") f p.2 = p.2 f)
    ∧ bulk_updater_writes (fun _ r => r "x") ["c"] 100
        [((1 : Nat), (fun _ => 7 : Record))] = [] := by
  have hc : ∀ p ∈ [((1 : Nat), (fun _ => 7 : Record))], ∀ f ∈ ["c"],
      (fun (_ : String) (r : Record) => r "x") f p.2 = p.2 f := by
    intro p hp f hf
    simp only [List.mem_singleton] at hp
    subst hp
    rfl
  exact ⟨by decide, hc,
    (bulk_updater_minimality (fun _ r => r "x") ["c"] 100
      [((1 : Nat), (fun _ => 7 : Record))]).2.2 (by decide) hc⟩

/-- Database-level actions performed by `fast_update`
(fast_update.py): a full naive fallback
(`model.objects.bulk_update(objs, fieldnames, batch_size)`), the trailing
naive update of the non-local fields only
(`model.objects.bulk_update(objs, non_local_fieldnames, batch_size)`), and
one SQL execution (`cur.execute(sql, data)`); `regenerated` records whether
the statement text was rebuilt for this flush (the
`if counter != last_counter` branch). -/
inductive Action where
  | naiveAll
  | naiveNonLocal
  | execSql (regenerated : Bool) (sql : String)
deriving DecidableEq

/-- The environment `fast_update` draws from the model and connection:
which field names are model-local (`model._meta.local_fields` membership),
whether the model has a primary key field (`model._meta.pk`), the statement
synthesis function `QUERY.get(vendor, as_dummy)(tablename, pk, fields,
count, ...)` as a function of the batch cardinality (empty string for
unsupported backends), and the batch size. -/
structure FUEnv where
  isLocal : String → Bool
  hasPk : Bool
  gen : Nat → String
  batch_size : Nat

/-- The update-data construction loop of `fast_update` (fast_update.py,
lines 202-218): rows (primary key value first) are flattened into `data`,
and a `(counter, data)` batch is emitted whenever `counter` reaches
`batch_size`, plus a final partial batch when `data` is non-empty. -/
def build_batches (bs : Nat) : List (List Int) → Nat → List Int →
    List (Nat × List Int)
  | [], counter, data => if data.isEmpty then [] else [(counter, data)]
  | row :: rest, counter, data =>
    let counter2 := counter + 1
    let data2 := data ++ row
    if bs ≤ counter2 then (counter2, data2) :: build_batches bs rest 0 []
    else build_batches bs rest counter2 data2

/-- The statement generation/execution loop of `fast_update`
(fast_update.py, lines 220-239). Mirrors the source exactly: `last_counter`
starts at `-1` and — like in the source, which never reassigns it — is
passed through unchanged, so the regeneration test `counter != last_counter`
compares every flush against `-1`. An empty generated statement aborts into
the full naive fallback (`return model.objects.bulk_update(objs,
fieldnames, batch_size)`); the Bool result marks that early return. -/
def fu_loop (gen : Nat → String) : List (Nat × List Int) → String → Int →
    List Action × Bool
  | [], _, _ => ([], false)
  | (counter, _data) :: rest, sql, last_counter =>
    if (counter : Int) ≠ last_counter then
      let sql2 := gen counter
      if sql2 = "" then ([Action.naiveAll], true)
      else
        let r := fu_loop gen rest sql2 last_counter
        (Action.execSql true sql2 :: r.1, r.2)
    else
      let r := fu_loop gen rest sql last_counter
      (Action.execSql false sql :: r.1, r.2)

/-- `fast_update` (fast_update.py, lines 145-242) as the list of database
actions it performs: split the requested field names into local and
non-local ones; route everything through `bulk_update` when non-local
fields are present and fewer than two local fields remain, or when the
model has no primary key; otherwise run the batched fast path for the local
fields (aborting into `bulk_update` when the backend synthesizes no
statement) and finish with a naive update of the non-local fields. -/
def fast_update (env : FUEnv) (objs : List (List Int))
    (fieldnames : List String) : List Action :=
  let non_local_fieldnames := fieldnames.filter (fun f => !env.isLocal f)
  let local_fieldnames := fieldnames.filter (fun f => env.isLocal f)
  if !non_local_fieldnames.isEmpty && local_fieldnames.length < 2 then
    [Action.naiveAll]
  else
    let first :=
      if local_fieldnames.isEmpty then (([] : List Action), false)
      else if !env.hasPk then ([Action.naiveAll], true)
      else fu_loop env.gen (build_batches env.batch_size objs 0 []) "" (-1)
    if first.2 then first.1
    else
      first.1 ++ (if non_local_fieldnames.isEmpty then [] else [Action.naiveNonLocal])

/-- C4: evaluation of `fast_update` at two flushed batches of equal
cardinality (four rows, batch size two). Both flushes regenerate the
statement text (`regenerated = true` on both `execSql` actions), because
`last_counter` is initialized to `-1` and never updated afterwards; the
second flush should have reused the statement built for the first. -/
theorem fast_update_regenerates_every_flush :
    fast_update
      (FUEnv.mk (fun _ => true) true (fun _ => "U") 2)
      [[1, 10], [2, 20], [3, 30], [4, 40]] ["a", "b"]
    = [Action.execSql true "U", Action.execSql true "U"] := by
  decide

/-- C7 counterexample: with no primary key field on the target model,
`fast_update` silently routes the whole batch through the naive
`bulk_update` path — it performs a write rather than propagating an error
to the caller (fast_update.py lines 195-197). -/
theorem fast_update_no_pk_counterexample :
    fast_update (FUEnv.mk (fun _ => true) false (fun _ => "U") 100)
      [[1, 1]] ["a", "b"]
    = [Action.naiveAll] := by
  decide

/-- C7 (amended): when the target model has no primary key field and at
least one requested field is model-local, `fast_update` falls back to a
single naive `bulk_update` of all requested fields; no error is raised by
`fast_update` itself. -/
theorem fast_update_no_pk_fallback (env : FUEnv) (objs : List (List Int))
    (fieldnames : List String)
    (hpk : env.hasPk = false)
    (hloc : (fieldnames.filter (fun f => env.isLocal f)).isEmpty = false) :
    fast_update env objs fieldnames = [Action.naiveAll] := by
  simp only [fast_update, hpk, hloc, Bool.not_false, if_true, Bool.false_eq_true,
    if_false]
  split
  · rfl
  · rfl

/-- Witness for C7 (amended) at a pk-less model with two local fields
(so the fast path would otherwise be taken). -/
theorem fast_update_no_pk_fallback_witness :
    (FUEnv.mk (fun _ => true) false (fun _ => "U") 100).hasPk = false
    ∧ ((["a", "b"].filter
        (fun f => (FUEnv.mk (fun _ => true) false (fun _ => "U") 100).isLocal f)).isEmpty
      = false)
    ∧ fast_update (FUEnv.mk (fun _ => true) false (fun _ => "U") 100)
        [[1, 1]] ["a", "b"] = [Action.naiveAll] :=
  ⟨rfl, by decide,
   fast_update_no_pk_fallback
     (FUEnv.mk (fun _ => true) false (fun _ => "U") 100) [[1, 1]] ["a", "b"]
     rfl (by decide)⟩

/-- C8 counterexample: with a single requested field that is model-local
(and hence no non-local fields), `fast_update` takes the fast
inline-value-set path — a single generated SQL statement — even though
fewer than two fast-path-eligible fields remain; the batch is not routed
through the naive `bulk_update` path. The `< 2` routing guard
(fast_update.py line 188) only fires when non-local fields are also
present. -/
theorem fast_update_single_local_field_counterexample :
    fast_update (FUEnv.mk (fun _ => true) true (fun _ => "S") 100)
      [[1, 5]] ["a"]
    = [Action.execSql true "S"]
    ∧ Action.naiveAll ∉
      fast_update (FUEnv.mk (fun _ => true) true (fun _ => "S") 100)
        [[1, 5]] ["a"] := by
  refine ⟨by decide, by decide⟩

/-- C8 (amended): only when the requested fields include at least one
non-local field and fewer than two model-local fields remain is the entire
batch routed through the naive per-record `bulk_update` path; with all
fields local, the fast path is used regardless of the field count. -/
theorem fast_update_small_local_routing (env : FUEnv) (objs : List (List Int))
    (fieldnames : List String)
    (hnl : (fieldnames.filter (fun f => !env.isLocal f)).isEmpty = false)
    (hlt : (fieldnames.filter (fun f => env.isLocal f)).length < 2) :
    fast_update env objs fieldnames = [Action.naiveAll] := by
  simp [fast_update, hnl, hlt]

/-- Witness for C8 (amended): one non-local and one local field. -/
theorem fast_update_small_local_routing_witness :
    ((["a", "b"].filter
        (fun f => !(FUEnv.mk (fun f2 => f2 = "a") true (fun _ => "S") 100).isLocal f)).isEmpty
      = false)
    ∧ (["a", "b"].filter
        (fun f => (FUEnv.mk (fun f2 => f2 = "a") true (fun _ => "S") 100).isLocal f)).length < 2
    ∧ fast_update (FUEnv.mk (fun f2 => f2 = "a") true (fun _ => "S") 100)
        [[1, 5]] ["a", "b"] = [Action.naiveAll] :=
  ⟨by decide, by decide,
   fast_update_small_local_routing
     (FUEnv.mk (fun f2 => f2 = "a") true (fun _ => "S") 100) [[1, 5]] ["a", "b"]
     (by decide) (by decide)⟩

/-- Database events emitted during one `update_dependent` propagation
(resolver.py, lines 501-594): a batched write against model `m` (one
`_update` flush of `bulk_updater`), and entering/leaving a
`transaction.atomic()` block. -/
inductive Ev where
  | write (m : Nat)
  | beginTx
  | endTx
deriving DecidableEq

/-- The dependency network `update_dependent` walks, with models named by
naturals: `hasCF` is `has_computedfields`, `flushes m` the number of write
batches `bulk_updater` flushes at model `m`, `deps m` the dependent models
returned by `_querysets_for_update` (with non-empty querysets), and
`qsNonempty` the queryset truthiness test guarding tree descent
(`if not local_only and queryset:`). -/
structure DepNet where
  hasCF : Nat → Bool
  flushes : Nat → Nat
  deps : Nat → List Nat
  qsNonempty : Nat → Bool

/-- The write flushes of one `bulk_updater` call at model `m` (its local
recompute-and-flush phase). -/
def localFlushEvents (net : DepNet) (m : Nat) : List Ev :=
  List.replicate (net.flushes m) (Ev.write m)

/-- `Resolver.update_dependent` (resolver.py, lines 501-594) as an event
trace. With `update_local` set and the entry model having computed fields,
the entry node's own local update runs first — outside any transaction (the
source comments "We skip a transaction here...", lines 575-580). Then, when
there are dependent-model updates, a `transaction.atomic()` block wraps one
`bulk_updater` call per dependent queryset, each flushing its batches and
descending recursively (`update_dependent` with `update_local=False`), and
afterwards the `old`-association repair `bulk_updater` calls (lines
590-594), still inside the block. `fuel` bounds the recursion depth, which
the acyclicity of the dependency graph keeps finite in the source. -/
def update_dependent (net : DepNet) : Nat → Nat → Bool → List Nat → List Ev
  | 0, _, _, _ => []
  | Nat.succ fuel, m, update_local, old =>
    (if update_local && net.hasCF m then localFlushEvents net m else []) ++
    (match net.deps m with
     | [] => []
     | d :: ds =>
       Ev.beginTx ::
         ((d :: ds) ++ old).foldr
           (fun d2 acc =>
              localFlushEvents net d2 ++
              (if net.qsNonempty d2 then update_dependent net fuel d2 false []
               else []) ++
              acc)
           [Ev.endTx])

/-- Transaction nesting depth after processing a trace, starting from `d`. -/
def finalDepth : List Ev → Nat → Nat
  | [], d => d
  | Ev.beginTx :: rest, d => finalDepth rest (d + 1)
  | Ev.endTx :: rest, d => finalDepth rest (d - 1)
  | Ev.write _ :: rest, d => finalDepth rest d

/-- Number of write events of a trace that occur at transaction depth 0,
i.e. outside every `transaction.atomic()` block, starting from depth `d`. -/
def outsideWrites : List Ev → Nat → Nat
  | [], _ => 0
  | Ev.beginTx :: rest, d => outsideWrites rest (d + 1)
  | Ev.endTx :: rest, d => outsideWrites rest (d - 1)
  | Ev.write _ :: rest, d => (if d = 0 then 1 else 0) + outsideWrites rest d

lemma finalDepth_append (a b : List Ev) :
    ∀ d, finalDepth (a ++ b) d = finalDepth b (finalDepth a d) := by
  induction a with
  | nil => intro d; rfl
  | cons e rest ih => intro d; cases e <;> simp only [List.cons_append,
      finalDepth] <;> exact ih _

lemma outsideWrites_append (a b : List Ev) :
    ∀ d, outsideWrites (a ++ b) d
      = outsideWrites a d + outsideWrites b (finalDepth a d) := by
  induction a with
  | nil => intro d; simp [outsideWrites, finalDepth]
  | cons e rest ih =>
    intro d
    cases e with
    | write mm =>
      show (if d = 0 then 1 else 0) + outsideWrites (rest ++ b) d
          = ((if d = 0 then 1 else 0) + outsideWrites rest d)
            + outsideWrites b (finalDepth rest d)
      rw [ih d, Nat.add_assoc]
    | beginTx =>
      show outsideWrites (rest ++ b) (d + 1)
          = outsideWrites rest (d + 1) + outsideWrites b (finalDepth rest (d + 1))
      exact ih (d + 1)
    | endTx =>
      show outsideWrites (rest ++ b) (d - 1)
          = outsideWrites rest (d - 1) + outsideWrites b (finalDepth rest (d - 1))
      exact ih (d - 1)

lemma finalDepth_replicate (k m : Nat) : ∀ d,
    finalDepth (List.replicate k (Ev.write m)) d = d := by
  induction k with
  | zero => intro d; rfl
  | succ n ih => intro d; simp only [List.replicate_succ, finalDepth]; exact ih d

lemma outsideWrites_replicate (k m : Nat) : ∀ d,
    outsideWrites (List.replicate k (Ev.write m)) d
      = if d = 0 then k else 0 := by
  induction k with
  | zero => intro d; simp [outsideWrites]
  | succ n ih =>
    intro d
    simp only [List.replicate_succ, outsideWrites, ih]
    by_cases hd : d = 0
    · simp [hd]; omega
    · simp [hd]

lemma inner_fold_balanced (net : DepNet) (fuel : Nat)
    (H : ∀ m old d, finalDepth (update_dependent net fuel m false old) d = d
        ∧ outsideWrites (update_dependent net fuel m false old) (d + 1) = 0) :
    ∀ (l : List Nat) (d2 : Nat),
    finalDepth (l.foldr
      (fun d3 acc =>
        localFlushEvents net d3 ++
        (if net.qsNonempty d3 then update_dependent net fuel d3 false []
         else []) ++ acc) [Ev.endTx]) (d2 + 1) = d2
    ∧ outsideWrites (l.foldr
      (fun d3 acc =>
        localFlushEvents net d3 ++
        (if net.qsNonempty d3 then update_dependent net fuel d3 false []
         else []) ++ acc) [Ev.endTx]) (d2 + 1) = 0 := by
  intro l
  induction l with
  | nil => intro d2; exact ⟨rfl, rfl⟩
  | cons d3 l2 ihl =>
    intro d2
    simp only [List.foldr_cons]
    have hrec : finalDepth
        (if net.qsNonempty d3 then update_dependent net fuel d3 false []
         else []) (d2 + 1) = d2 + 1 := by
      split
      · exact (H d3 [] (d2 + 1)).1
      · rfl
    have hrecw : outsideWrites
        (if net.qsNonempty d3 then update_dependent net fuel d3 false []
         else []) (d2 + 1) = 0 := by
      split
      · exact (H d3 [] d2).2
      · rfl
    constructor
    · simp only [finalDepth_append, localFlushEvents, finalDepth_replicate, hrec]
      exact (ihl d2).1
    · simp only [outsideWrites_append, finalDepth_append, localFlushEvents,
        outsideWrites_replicate, finalDepth_replicate, hrec, hrecw]
      simp only [Nat.succ_ne_zero, if_false, Nat.add_eq, Nat.zero_add]
      simpa using (ihl d2).2

lemma update_dependent_balanced (net : DepNet) :
    ∀ fuel m ul old d,
    finalDepth (update_dependent net fuel m ul old) d = d
    ∧ outsideWrites (update_dependent net fuel m ul old) (d + 1) = 0 := by
  intro fuel
  induction fuel with
  | zero => intro m ul old d; exact ⟨rfl, rfl⟩
  | succ fuel ih =>
    intro m ul old d
    have hloc : ∀ d2, finalDepth
        (if ul && net.hasCF m then localFlushEvents net m else []) d2 = d2 := by
      intro d2
      split
      · exact finalDepth_replicate _ _ d2
      · rfl
    have hlocw : ∀ d2, outsideWrites
        (if ul && net.hasCF m then localFlushEvents net m else []) (d2 + 1) = 0 := by
      intro d2
      split
      · rw [localFlushEvents, outsideWrites_replicate]; simp
      · rfl
    have inner := inner_fold_balanced net fuel (fun m2 old2 d2 => ih m2 false old2 d2)
    constructor
    · rw [update_dependent, finalDepth_append, hloc]
      match net.deps m with
      | [] => rfl
      | d4 :: ds =>
        show finalDepth (Ev.beginTx :: _) d = d
        rw [finalDepth]
        exact (inner ((d4 :: ds) ++ old) d).1
    · rw [update_dependent, outsideWrites_append, hlocw, hloc]
      match net.deps m with
      | [] => rfl
      | d4 :: ds =>
        show 0 + outsideWrites (Ev.beginTx :: _) (d + 1) = 0
        rw [outsideWrites]
        simpa using (inner ((d4 :: ds) ++ old) (d + 1)).2

/-- C5 counterexample: in a propagation with an entry model (0) that has
computed fields and one dependent model (1), the entry node's own local
computed-field write happens at transaction depth 0, outside the atomic
block that wraps the dependent updates — so not all writes of the
propagation call lie inside one atomic transaction boundary. -/
theorem update_dependent_local_write_outside_tx :
    outsideWrites
      (update_dependent
        (DepNet.mk (fun _ => true) (fun _ => 1)
          (fun n => if n = 0 then [1] else []) (fun _ => true))
        2 0 true []) 0 ≠ 0 := by
  decide

/-- C5 (amended): within one `update_dependent` call, every dependent-model
write at every recursion depth happens inside an atomic transaction region;
the only writes outside any transaction are the entry node's own local
computed-field flushes (present exactly when `update_local` is set and the
entry model has computed fields). In particular with `update_local = False`
no write happens outside a transaction. -/
theorem update_dependent_atomicity (net : DepNet) (fuel m : Nat) (ul : Bool)
    (old : List Nat) :
    outsideWrites (update_dependent net (fuel + 1) m ul old) 0
      = (if ul && net.hasCF m then net.flushes m else 0)
    ∧ outsideWrites (update_dependent net (fuel + 1) m false old) 0 = 0 := by
  have main : ∀ ul2, outsideWrites (update_dependent net (fuel + 1) m ul2 old) 0
      = (if ul2 && net.hasCF m then net.flushes m else 0) := by
    intro ul2
    rw [update_dependent, outsideWrites_append]
    have hloc : finalDepth
        (if ul2 && net.hasCF m then localFlushEvents net m else []) 0 = 0 := by
      split
      · exact finalDepth_replicate _ _ 0
      · rfl
    have hlocw : outsideWrites
        (if ul2 && net.hasCF m then localFlushEvents net m else []) 0
        = (if ul2 && net.hasCF m then net.flushes m else 0) := by
      split
      · rw [localFlushEvents, outsideWrites_replicate]; rfl
      · rfl
    rw [hloc, hlocw]
    have inner := inner_fold_balanced net fuel
      (fun m2 old2 d2 => update_dependent_balanced net fuel m2 false old2 d2)
    match net.deps m with
    | [] => simp [outsideWrites]
    | d4 :: ds =>
      show _ + outsideWrites (Ev.beginTx :: _) 0 = _
      rw [outsideWrites]
      rw [(inner ((d4 :: ds) ++ old) 0).2]
      omega
  exact ⟨main ul, main false⟩

end ComputedFields
